import Mathlib

/-!
Verification of the Roo-Code fuzzy multi-hunk search/replace diff engine
(spec sections 2-8) and of the `runClaudeCode`/`runProcess` CLI argument
construction (`src/unnamed/part_001`).

The diff engine implementation itself is not among the provided source
files (only its Unicode test suite is), so the engine is modelled from the
specification, as marked on each definition.  Text is modelled as `List
Char` (a sequence of Unicode scalar values), so comparisons are atomic on
characters, matching the spec's requirement that matching never bisect a
multi-code-unit character.
-/

namespace DiffEngine

/-- Text is a sequence of Unicode characters. -/
abbrev Str := List Char

/-- Modelled from the spec: normalizing line terminators (CRLF becomes LF). -/
def stripCR : Str → Str
  | [] => []
  | '\r' :: '\n' :: rest => '\n' :: stripCR rest
  | c :: rest => c :: stripCR rest

/-- Modelled from the spec: splitting text into lines on the (normalized)
line terminator.  Always returns at least one line. -/
def splitNL : Str → List Str
  | [] => [[]]
  | '\n' :: rest => [] :: splitNL rest
  | c :: rest =>
    match splitNL rest with
    | [] => [[c]]
    | l :: ls => (c :: l) :: ls

/-- Modelled from the spec: joining a line range back into text with the
LF terminator between lines. -/
def joinNL : List Str → Str
  | [] => []
  | [l] => l
  | l :: ls => l ++ '\n' :: joinNL ls

/-- Modelled from the spec (section 3): a Document is an ordered sequence of
lines derived by splitting input text on line terminators, with the original
terminator style (CRLF or LF) recorded so it can be restored on output. -/
structure Document where
  lines : List Str
  crlf : Bool
deriving DecidableEq, Repr

/-- Modelled from the spec (section 3): one search/replace instruction with
optional advisory line hints. -/
structure EditOperation where
  searchText : Str
  replaceText : Str
  startLine : Option Nat := none
  endLine : Option Nat := none
deriving DecidableEq, Repr

/-- Modelled from the spec (section 3): the resolved 1-indexed inclusive line
range and the similarity score achieved (1 = exact). -/
structure MatchResult where
  startLine : Nat
  endLine : Nat
  confidence : Rat
deriving DecidableEq, Repr

/-- Modelled from the spec (section 7): the failure taxonomy.  `noMatch`
carries the best similarity score found, `overlappingEdits` names the
conflicting operation indices.  (Human-readable detail strings are omitted:
no claim depends on them.) -/
inductive FailureKind where
  | malformedBlock
  | ambiguousInsertion
  | noMatch (bestScore : Rat)
  | overlappingEdits (i j : Nat)
deriving DecidableEq, Repr

/-- Modelled from the spec (section 3): `applyDiff` either succeeds with the
new document or fails with a `FailureKind`. -/
inductive ApplyResult where
  | success (doc : Document)
  | failure (kind : FailureKind)
deriving DecidableEq, Repr

/-- Modelled from the spec (sections 4.2, 6): per-call configuration - the
fuzzy-match acceptance threshold and the neighborhood radius (in lines)
searched around a line hint during fuzzy matching. -/
structure Config where
  fuzzyThreshold : Rat
  bufferLines : Nat
deriving DecidableEq, Repr

/-- Number of lines of a search text, after terminator normalization. -/
def searchLen (search : Str) : Nat := (splitNL (stripCR search)).length

/-- The contiguous window of `len` lines starting at 0-indexed line `i`. -/
def windowAt (lines : List Str) (i len : Nat) : List Str :=
  (lines.drop i).take len

/-- Modelled from the spec (section 4.2, step 2): the window of lines starting
at 0-indexed `i` is an exact occurrence of the search text when its joined
content is character-identical to the search text after normalizing line
terminators (not after stripping whitespace). -/
def exactAt (lines : List Str) (search : Str) (i : Nat) : Bool :=
  decide (joinNL (windowAt lines i (searchLen search)) = stripCR search)

/-- All 0-indexed start lines of exact occurrences, in document order. -/
def exactCandidates (lines : List Str) (search : Str) : List Nat :=
  (List.range lines.length).filter (exactAt lines search)

/-- Absolute distance between the 1-indexed start of a window at 0-indexed
`i` and a 1-indexed line hint `h`. -/
def distTo (h i : Nat) : Nat := max (i + 1) h - min (i + 1) h

/-- One step of the nearest-to-hint selection: keep the incumbent unless the
new candidate is strictly closer to the hint. -/
def nearStep (h : Nat) (acc : Option Nat) (i : Nat) : Option Nat :=
  match acc with
  | none => some i
  | some b => if distTo h i < distTo h b then some i else some b

/-- Modelled from the spec (section 4.2, step 2): among candidate start
lines, prefer the one closest to the hint, breaking ties in favor of the
earliest position in the document. -/
def pickNearest (h : Nat) (cs : List Nat) : Option Nat :=
  cs.foldl (nearStep h) none

/-- Levenshtein dynamic-programming inner loop: given the previous row tail,
the diagonal value and the value to the left, produce the new row tail. -/
def levRow (x : Char) : Str → List Nat → Nat → Nat → List Nat
  | [], _, _, _ => []
  | _ :: _, [], _, _ => []
  | y :: ys, p :: ps, diag, left =>
    let cur := min (min (p + 1) (left + 1)) (diag + (if x = y then 0 else 1))
    cur :: levRow x ys ps p cur

/-- Levenshtein dynamic-programming row step for one character of the first
string. -/
def levFold (b : Str) (row : List Nat) (x : Char) : List Nat :=
  match row with
  | [] => []
  | d :: rest => (d + 1) :: levRow x b rest d (d + 1)

/-- Levenshtein edit distance between two character sequences (row-by-row
dynamic programming). -/
def levenshtein (a b : Str) : Nat :=
  (a.foldl (levFold b) (List.range (b.length + 1))).getLastD 0

/-- Modelled from the spec (section 4.2, step 3, and section 9): the
normalized similarity score in [0,1] is the classical edit-distance ratio
`1 - dist/maxLen` (1 = identical). -/
def similarity (a b : Str) : Rat :=
  if a = b then 1
  else 1 - (levenshtein a b : Rat) / (max a.length b.length : Rat)

/-- Modelled from the spec (section 4.2, step 3): the candidate start lines
for fuzzy matching - every window whose line count equals the search text's
line count, restricted to the configured neighborhood around the line hint
when a hint is present. -/
def fuzzyStarts (cfg : Config) (lines : List Str) (op : EditOperation) :
    List Nat :=
  (List.range (lines.length + 1 - searchLen op.searchText)).filter fun i =>
    match op.startLine with
    | none => true
    | some h => decide (distTo h i ≤ cfg.bufferLines)

/-- Modelled from the spec (section 4.2, step 3): each fuzzy candidate start
paired with its similarity score against the normalized search text. -/
def fuzzyScores (cfg : Config) (lines : List Str) (op : EditOperation) :
    List (Nat × Rat) :=
  (fuzzyStarts cfg lines op).map fun i =>
    (i, similarity (joinNL (windowAt lines i (searchLen op.searchText)))
      (stripCR op.searchText))

/-- One step of the best-score selection: keep the incumbent unless the new
candidate scores strictly higher. -/
def bestStep (acc : Option (Nat × Rat)) (c : Nat × Rat) : Option (Nat × Rat) :=
  match acc with
  | none => some c
  | some b => if b.2 < c.2 then some c else some b

/-- The highest-scoring candidate, ties broken by earliest position. -/
def pickBest (cs : List (Nat × Rat)) : Option (Nat × Rat) :=
  cs.foldl bestStep none

/-- Modelled from the spec (section 4.2, step 3): accept the highest-scoring
window if its score meets or exceeds the configured threshold; otherwise fail
with `noMatch` carrying the best score found. -/
def fuzzyMatch (cfg : Config) (lines : List Str) (op : EditOperation) :
    Except FailureKind MatchResult :=
  match pickBest (fuzzyScores cfg lines op) with
  | none => .error (.noMatch 0)
  | some (i, c) =>
    if cfg.fuzzyThreshold ≤ c then
      .ok ⟨i + 1, i + searchLen op.searchText, c⟩
    else .error (.noMatch c)

/-- Modelled from the spec (section 4.2, step 2): the Matcher's selection
among the exact occurrences - nearest the hint when one is given, first in
document order otherwise. -/
def chooseExact (hint : Option Nat) (cands : List Nat) : Option Nat :=
  match hint with
  | some h => pickNearest h cands
  | none => cands.head?

/-- Modelled from the spec (section 4.2): the Matcher.  Empty search text
resolves directly to the hinted line as a pure insertion (`startLine =
endLine + 1`); the hint is required (else `ambiguousInsertion`) and must lie
within the document (the spec leaves out-of-range hints unspecified).
Otherwise exact matching is tried over the whole document - preferring the
occurrence nearest the hint, ties to the earliest, or the first occurrence
when no hint is given - and fuzzy matching is the fallback. -/
def matchOp (cfg : Config) (lines : List Str) (op : EditOperation) :
    Except FailureKind MatchResult :=
  if op.searchText = [] then
    match op.startLine with
    | none => .error .ambiguousInsertion
    | some h =>
      if 1 ≤ h ∧ h ≤ lines.length + 1 then .ok ⟨h, h - 1, 1⟩
      else .error (.noMatch 0)
  else
    match chooseExact op.startLine (exactCandidates lines op.searchText) with
    | some i => .ok ⟨i + 1, i + searchLen op.searchText, 1⟩
    | none => fuzzyMatch cfg lines op

/-- Modelled from the spec (sections 2, 4.3): every operation is resolved
against the original, unmodified document; the first Matcher failure is
propagated untouched. -/
def resolveAll (cfg : Config) (lines : List Str) :
    List EditOperation → Except FailureKind (List MatchResult)
  | [] => .ok []
  | op :: rest =>
    match matchOp cfg lines op with
    | .error f => .error f
    | .ok m =>
      match resolveAll cfg lines rest with
      | .error f => .error f
      | .ok ms => .ok (m :: ms)

/-- Modelled from the spec (glossary): two resolved 1-indexed inclusive line
ranges overlap when they share at least one line index. -/
def rangesOverlap (a b : MatchResult) : Bool :=
  decide (a.startLine ≤ b.endLine ∧ b.startLine ≤ a.endLine)

/-- Index (position offset) of the first element of the list whose range
overlaps `m`, if any. -/
def overlapWithin (m : MatchResult) : List MatchResult → Option Nat
  | [] => none
  | m' :: rest =>
    if rangesOverlap m m' then some 0
    else (overlapWithin m rest).map (· + 1)

/-- Modelled from the spec (section 4.3): find the first pair of operation
indices whose resolved ranges intersect. -/
def findOverlap : List MatchResult → Option (Nat × Nat)
  | [] => none
  | m :: rest =>
    match overlapWithin m rest with
    | some j => some (0, j + 1)
    | none => (findOverlap rest).map fun p => (p.1 + 1, p.2 + 1)

/-- A resolved edit: the matched 1-indexed inclusive range together with the
replacement split into lines. -/
structure ResolvedEdit where
  startLine : Nat
  endLine : Nat
  replaceLines : List Str
deriving DecidableEq, Repr

/-- Pair every resolved match with its operation's replacement lines. -/
def mkEdits (ops : List EditOperation) (ms : List MatchResult) :
    List ResolvedEdit :=
  List.zipWith
    (fun op m => ⟨m.startLine, m.endLine, splitNL (stripCR op.replaceText)⟩)
    ops ms

/-- Modelled from the spec (section 4.3): the application order processes
ranges from the highest starting line to the lowest; among equal start lines
the longer range (larger end line) goes first, so that a pure insertion at a
line is applied after a replacement starting at that same line. -/
def edGE (a b : ResolvedEdit) : Prop :=
  b.startLine < a.startLine ∨
    (b.startLine = a.startLine ∧ b.endLine ≤ a.endLine)

instance : DecidableRel edGE := fun a b => by
  unfold edGE; exact inferInstance

instance : IsTotal ResolvedEdit edGE := ⟨fun a b => by unfold edGE; omega⟩

instance : IsTrans ResolvedEdit edGE := ⟨fun a b c => by unfold edGE; omega⟩

/-- Sort the resolved edits into application order (highest start line
first). -/
def sortDesc (es : List ResolvedEdit) : List ResolvedEdit :=
  List.insertionSort edGE es

/-- Modelled from the spec (section 4.4): replace the inclusive 1-indexed
line range with the replacement lines, splicing into the line sequence. -/
def splice (lines : List Str) (e : ResolvedEdit) : List Str :=
  lines.take (e.startLine - 1) ++ e.replaceLines ++ lines.drop e.endLine

/-- Modelled from the spec (section 4.4): apply the edits in the given
(already sorted, highest-first) order. -/
def applyEdits : List Str → List ResolvedEdit → List Str
  | lines, [] => lines
  | lines, e :: rest => applyEdits (splice lines e) rest

/-- Modelled from the spec (sections 2, 4, 6): the full pipeline on a parsed
batch of edit operations.  The Block Parser (section 4.1) is elided: this
function consumes its output, the ordered list of `EditOperation`.  Every
operation is resolved against the original document, the batch fails as a
whole on any Matcher failure or on overlapping ranges (all-or-nothing), and
otherwise the edits are applied from the highest starting line to the lowest
and the document's recorded terminator convention is kept. -/
def applyDiff (cfg : Config) (doc : Document) (ops : List EditOperation) :
    ApplyResult :=
  match resolveAll cfg doc.lines ops with
  | .error f => .failure f
  | .ok ms =>
    match findOverlap ms with
    | some (i, j) => .failure (.overlappingEdits i j)
    | none =>
      .success ⟨applyEdits doc.lines (sortDesc (mkEdits ops ms)), doc.crlf⟩

/-- The segment decomposition of the output of a (highest-first sorted)
batch: untouched prefix segments of the input interleaved with replacement
blocks, with the untouched suffix taken verbatim from the input. -/
def segments (lines : List Str) : List ResolvedEdit → List Str
  | [] => lines
  | e :: rest =>
    segments (lines.take (e.startLine - 1)) rest
      ++ e.replaceLines ++ lines.drop e.endLine

/-- Whether an `ApplyResult` is a failure of kind `overlappingEdits`. -/
def isOverlapFailure : ApplyResult → Bool
  | .failure (.overlappingEdits _ _) => true
  | _ => false

/-- Non-overlap of two resolved edits, as a relation for `List.Pairwise`. -/
def edNoOverlap (a b : ResolvedEdit) : Prop :=
  ¬(a.startLine ≤ b.endLine ∧ b.startLine ≤ a.endLine)

/-- A resolved edit is valid for a document of `n` lines: 1-indexed, start
at most one past the end line (equality exactly for pure insertions), and
end within the document. -/
def validEdit (n : Nat) (e : ResolvedEdit) : Prop :=
  1 ≤ e.startLine ∧ e.startLine ≤ e.endLine + 1 ∧ e.endLine ≤ n

end DiffEngine

namespace ClaudeCode

/-- Windows has a command line length limit of about 8191 characters; the
source uses a conservative limit of 7000 for the system prompt. -/
def MAX_COMMAND_LINE_LENGTH : Nat := 7000

/-- The built-in tools disabled via `--disallowedTools`. -/
def claudeCodeToolNames : List String :=
  ["Task", "Bash", "Glob", "Grep", "LS", "exit_plan_mode", "Read", "Edit",
   "MultiEdit", "Write", "NotebookRead", "NotebookEdit", "WebFetch",
   "TodoRead", "TodoWrite", "WebSearch"]

/-- The comma-joined `--disallowedTools` argument value. -/
def claudeCodeTools : String := String.intercalate "," claudeCodeToolNames

/-- Result of spawning the CLI process: the spawned command, its argument
list, and - when the long-prompt branch was taken - the temporary file's
path and written contents (the source's `tempFileCleanup`, which also
carries the deletion callback for that same path). -/
structure RunProcessResult where
  command : String
  args : List String
  tempFile : Option (String × String)
deriving DecidableEq, Repr

/-- Model of JavaScript `toLowerCase` as used on the executable path. -/
def toLowerStr (s : String) : String := String.mk (s.data.map Char.toLower)

/-- The argument list built by `runProcess` before any Windows wrapping:
`-p`, then `--system-prompt` followed either by the prompt inline (short
prompts) or by `@<tempPath>` (prompts longer than `MAX_COMMAND_LINE_LENGTH`),
then the fixed flags, then `--model <id>` when a model is configured. -/
def baseArgs (systemPrompt tempPath : String) (modelId : Option String) :
    List String :=
  ["-p"]
    ++ (if systemPrompt.length > MAX_COMMAND_LINE_LENGTH then
          ["--system-prompt", "@" ++ tempPath]
        else ["--system-prompt", systemPrompt])
    ++ ["--verbose", "--output-format", "stream-json", "--disallowedTools",
        claudeCodeTools, "--max-turns", "1"]
    ++ (match modelId with
        | some m => ["--model", m]
        | none => [])

/-- Model of `runProcess`: the executable defaults to `claude`; prompts
longer than `MAX_COMMAND_LINE_LENGTH` go through a temporary file whose
(timestamp-and-random) path is abstracted as the `tempPath` parameter and
whose contents are the prompt; on `win32`, unless the configured path is
already `cmd.exe` or `cmd` (case-insensitively), the command is wrapped as
`cmd.exe /c <path> <args>`. -/
def runProcess (systemPrompt : String) (claudeCodePath : Option String)
    (modelId : Option String) (platform tempPath : String) :
    RunProcessResult :=
  let claudePath := claudeCodePath.getD "claude"
  let useTempFileForSystemPrompt :=
    systemPrompt.length > MAX_COMMAND_LINE_LENGTH
  let args0 := baseArgs systemPrompt tempPath modelId
  let isWindows : Bool := platform == "win32"
  let isAlreadyWrapped : Bool :=
    toLowerStr claudePath == "cmd.exe" || toLowerStr claudePath == "cmd"
  { command := if isWindows && !isAlreadyWrapped then "cmd.exe" else claudePath
    args :=
      if isWindows && !isAlreadyWrapped then "/c" :: claudePath :: args0
      else args0
    tempFile :=
      if useTempFileForSystemPrompt then some (tempPath, systemPrompt)
      else none }

/-- The command-line argument immediately following the first occurrence of
`flag` in an argument list. -/
def argAfter (flag : String) : List String → Option String
  | a :: b :: rest => if a = flag then some b else argAfter flag (b :: rest)
  | _ => none

/-- Model of the generator's `finally` block in `runClaudeCode`: the cleanup
(deleting the temporary file at its recorded path) runs exactly when a
temporary file was created; this returns the path that gets deleted. -/
def cleanupTarget (r : RunProcessResult) : Option String :=
  r.tempFile.map Prod.fst

end ClaudeCode

namespace DiffEngine

theorem splitNL_ne_nil (s : Str) : splitNL s ≠ [] := by
  induction s using splitNL.induct with
  | case1 => simp [splitNL]
  | case2 rest ih => simp [splitNL]
  | case3 c rest hc heq ih => simp [splitNL, heq]
  | case4 c rest hc l ls heq ih => simp [splitNL, heq]

theorem noNL_splitNL (s : Str) : ∀ l ∈ splitNL s, '\n' ∉ l := by
  induction s using splitNL.induct with
  | case1 => intro l hl; simp [splitNL] at hl; simp [hl]
  | case2 rest ih =>
    intro l hl
    simp only [splitNL, List.mem_cons] at hl
    rcases hl with h | h
    · simp [h]
    · exact ih l h
  | case3 c rest hc heq ih => exact absurd heq (splitNL_ne_nil rest)
  | case4 c rest hc l0 ls heq ih =>
    intro l hl
    simp only [splitNL, heq, List.mem_cons] at hl
    rcases hl with h1 | h1
    · subst h1
      intro hmem
      rcases List.mem_cons.mp hmem with h2 | h2
      · exact hc h2.symm
      · exact ih l0 (heq ▸ List.mem_cons_self l0 ls) h2
    · exact ih l (heq ▸ List.mem_cons_of_mem l0 h1)

theorem joinNL_splitNL (s : Str) : joinNL (splitNL s) = s := by
  induction s using splitNL.induct with
  | case1 => simp [splitNL, joinNL]
  | case2 rest ih =>
    simp only [splitNL]
    cases h : splitNL rest with
    | nil => exact absurd h (splitNL_ne_nil rest)
    | cons l0 ls =>
      rw [h] at ih
      simp [joinNL, ih]
  | case3 c rest hc heq ih => exact absurd heq (splitNL_ne_nil rest)
  | case4 c rest hc l0 ls heq ih =>
    simp only [splitNL, heq]
    rw [heq] at ih
    cases ls with
    | nil => simp only [joinNL] at ih ⊢; rw [ih]
    | cons l1 ls' =>
      simp only [joinNL] at ih ⊢
      rw [List.cons_append, ih]

theorem stripCR_ne_nil {s : Str} (h : s ≠ []) : stripCR s ≠ [] := by
  rw [stripCR.eq_def]
  split
  · exact absurd rfl h
  · simp
  · simp

theorem foldl_nearStep_mem (h : Nat) :
    ∀ (cs : List Nat) (acc : Option Nat) (i : Nat),
      cs.foldl (nearStep h) acc = some i → acc = some i ∨ i ∈ cs := by
  intro cs
  induction cs with
  | nil => intro acc i hf; exact Or.inl hf
  | cons c cs' ih =>
    intro acc i hf
    simp only [List.foldl_cons] at hf
    rcases ih (nearStep h acc c) i hf with h1 | h1
    · cases acc with
      | none =>
        simp only [nearStep, Option.some.injEq] at h1
        exact Or.inr (h1 ▸ List.mem_cons_self c cs')
      | some b =>
        simp only [nearStep] at h1
        split at h1
        · simp only [Option.some.injEq] at h1
          exact Or.inr (h1 ▸ List.mem_cons_self c cs')
        · exact Or.inl h1
    · exact Or.inr (List.mem_cons_of_mem c h1)

theorem pickNearest_mem {h : Nat} {cs : List Nat} {i : Nat}
    (hp : pickNearest h cs = some i) : i ∈ cs := by
  rcases foldl_nearStep_mem h cs none i hp with h1 | h1
  · exact absurd h1 (by simp)
  · exact h1

theorem foldl_bestStep_mem :
    ∀ (cs : List (Nat × Rat)) (acc : Option (Nat × Rat)) (c0 : Nat × Rat),
      cs.foldl bestStep acc = some c0 → acc = some c0 ∨ c0 ∈ cs := by
  intro cs
  induction cs with
  | nil => intro acc c0 hf; exact Or.inl hf
  | cons c cs' ih =>
    intro acc c0 hf
    simp only [List.foldl_cons] at hf
    rcases ih (bestStep acc c) c0 hf with h1 | h1
    · cases acc with
      | none =>
        simp only [bestStep, Option.some.injEq] at h1
        exact Or.inr (h1 ▸ List.mem_cons_self c cs')
      | some b =>
        simp only [bestStep] at h1
        split at h1
        · simp only [Option.some.injEq] at h1
          exact Or.inr (h1 ▸ List.mem_cons_self c cs')
        · exact Or.inl h1
    · exact Or.inr (List.mem_cons_of_mem c h1)

theorem pickBest_mem {cs : List (Nat × Rat)} {c0 : Nat × Rat}
    (hp : pickBest cs = some c0) : c0 ∈ cs := by
  rcases foldl_bestStep_mem cs none c0 hp with h1 | h1
  · exact absurd h1 (by simp)
  · exact h1

theorem mem_of_head_eq {l : List Nat} {a : Nat} (h : l.head? = some a) :
    a ∈ l := by
  cases l with
  | nil => simp at h
  | cons b t =>
    simp only [List.head?_cons, Option.some.injEq] at h
    exact h ▸ List.mem_cons_self b t

theorem chooseExact_mem {hint : Option Nat} {cands : List Nat} {i : Nat}
    (h : chooseExact hint cands = some i) : i ∈ cands := by
  unfold chooseExact at h
  cases hint with
  | none => exact mem_of_head_eq h
  | some h0 => exact pickNearest_mem h

theorem filter_range_eq_singleton {p : Nat → Bool} :
    ∀ (n i : Nat), i < n → p i = true →
      (∀ j, j < n → p j = true → j = i) →
      (List.range n).filter p = [i] := by
  intro n
  induction n with
  | zero => intro i hi _ _; omega
  | succ n ih =>
    intro i hi hpi huniq
    rw [List.range_succ, List.filter_append]
    by_cases hn : i = n
    · have h1 : (List.range n).filter p = [] := by
        rw [List.filter_eq_nil_iff]
        intro a ha
        simp only [List.mem_range] at ha
        intro hpa
        have := huniq a (Nat.lt_succ_of_lt ha) hpa
        omega
      have hpn : p n = true := by rw [← hn]; exact hpi
      simp [h1, List.filter_cons, hpn, hn]
    · have hi' : i < n := by omega
      have hpn : p n = false := by
        by_cases hpn : p n = true
        · exact absurd (huniq n (Nat.lt_succ_self n) hpn) (fun he => hn he.symm)
        · simpa using hpn
      have h2 := ih i hi' hpi (fun j hj hpj => huniq j (Nat.lt_succ_of_lt hj) hpj)
      simp [h2, List.filter_cons, hpn]

theorem filter_range_eq_pair {p : Nat → Bool} :
    ∀ (n i j : Nat), i < j → j < n → p i = true → p j = true →
      (∀ k, k < n → p k = true → k = i ∨ k = j) →
      (List.range n).filter p = [i, j] := by
  intro n
  induction n with
  | zero => intro i j _ hj _ _ _; omega
  | succ n ih =>
    intro i j hij hj hpi hpj huniq
    rw [List.range_succ, List.filter_append]
    by_cases hjn : j = n
    · have h1 : (List.range n).filter p = [i] := by
        refine filter_range_eq_singleton n i (by omega) hpi ?_
        intro k hk hpk
        rcases huniq k (Nat.lt_succ_of_lt hk) hpk with h | h
        · exact h
        · omega
      have hpn : p n = true := by rw [← hjn]; exact hpj
      simp [h1, List.filter_cons, hpn, hjn]
    · have hj' : j < n := by omega
      have hpn : p n = false := by
        by_cases hpn : p n = true
        · rcases huniq n (Nat.lt_succ_self n) hpn with h | h <;> omega
        · simpa using hpn
      have h2 := ih i j hij hj' hpi hpj
        (fun k hk hpk => huniq k (Nat.lt_succ_of_lt hk) hpk)
      simp [h2, List.filter_cons, hpn]

theorem nl_append_inj :
    ∀ {a c X Y : Str}, '\n' ∉ a → '\n' ∉ c →
      a ++ '\n' :: X = c ++ '\n' :: Y → a = c ∧ X = Y := by
  intro a
  induction a with
  | nil =>
    intro c X Y _ hc h
    cases c with
    | nil => simpa using h
    | cons hc0 tc =>
      simp only [List.nil_append, List.cons_append, List.cons.injEq] at h
      exact absurd (h.1 ▸ List.mem_cons_self hc0 tc) hc
  | cons ha ta ih =>
    intro c X Y hna hc h
    cases c with
    | nil =>
      simp only [List.cons_append, List.nil_append, List.cons.injEq] at h
      exact absurd (h.1 ▸ List.mem_cons_self ha ta) hna
    | cons hc0 tc =>
      simp only [List.cons_append, List.cons.injEq] at h
      have hna' : '\n' ∉ ta := fun hm => hna (List.mem_cons_of_mem ha hm)
      have hc' : '\n' ∉ tc := fun hm => hc (List.mem_cons_of_mem hc0 hm)
      obtain ⟨h1, h2⟩ := ih hna' hc' h.2
      exact ⟨by rw [h.1, h1], h2⟩

theorem joinNL_inj :
    ∀ {xs ys : List Str}, xs ≠ [] → ys ≠ [] →
      (∀ l ∈ xs, '\n' ∉ l) → (∀ l ∈ ys, '\n' ∉ l) →
      joinNL xs = joinNL ys → xs = ys := by
  intro xs
  induction xs using joinNL.induct with
  | case1 => intro ys h; exact absurd rfl h
  | case2 x =>
    intro ys _ hys hxw hyw h
    cases ys with
    | nil => exact absurd rfl hys
    | cons y ys' =>
      cases ys' with
      | nil =>
        simp only [joinNL] at h
        rw [h]
      | cons y2 ys'' =>
        simp only [joinNL] at h
        have : '\n' ∈ x := by
          rw [h]
          exact List.mem_append_right y (List.mem_cons_self '\n' _)
        exact absurd this (hxw x (List.mem_cons_self x []))
  | case3 x xs' hxs' ih =>
    intro ys _ hys hxw hyw h
    cases hx2 : xs' with
    | nil => exact absurd hx2 hxs'
    | cons x2 xs'' =>
    subst hx2
    cases ys with
    | nil => exact absurd rfl hys
    | cons y ys' =>
      cases ys' with
      | nil =>
        simp only [joinNL] at h
        have : '\n' ∈ y := by
          rw [← h]
          exact List.mem_append_right x (List.mem_cons_self '\n' _)
        exact absurd this (hyw y (List.mem_cons_self y []))
      | cons y2 ys'' =>
        simp only [joinNL] at h
        have hxw1 : '\n' ∉ x := hxw x (List.mem_cons_self x _)
        have hyw1 : '\n' ∉ y := hyw y (List.mem_cons_self y _)
        obtain ⟨h1, h2⟩ := nl_append_inj hxw1 hyw1 h
        have htail : x2 :: xs'' = y2 :: ys'' := by
          refine ih (by simp) (by simp) ?_ ?_ h2
          · intro l hl; exact hxw l (List.mem_cons_of_mem x hl)
          · intro l hl; exact hyw l (List.mem_cons_of_mem y hl)
        rw [h1, htail]

theorem exactAt_spec {lines : List Str} {search : Str} {i : Nat}
    (hwf : ∀ l ∈ lines, '\n' ∉ l) (hne : search ≠ [])
    (h : exactAt lines search i = true) :
    windowAt lines i (searchLen search) = splitNL (stripCR search) ∧
      i + searchLen search ≤ lines.length := by
  have hj : joinNL (windowAt lines i (searchLen search)) = stripCR search :=
    of_decide_eq_true h
  have hsne : stripCR search ≠ [] := stripCR_ne_nil hne
  have hwne : windowAt lines i (searchLen search) ≠ [] := by
    intro hw
    rw [hw] at hj
    exact hsne (by simpa [joinNL] using hj.symm)
  have hwnl : ∀ l ∈ windowAt lines i (searchLen search), '\n' ∉ l := by
    intro l hl
    exact hwf l (List.mem_of_mem_drop (List.mem_of_mem_take hl))
  have heq : windowAt lines i (searchLen search) = splitNL (stripCR search) := by
    apply joinNL_inj hwne (splitNL_ne_nil _) hwnl (noNL_splitNL _)
    rw [hj, joinNL_splitNL]
  refine ⟨heq, ?_⟩
  have hlen := congrArg List.length heq
  have hL : 1 ≤ searchLen search :=
    List.length_pos.mpr (splitNL_ne_nil (stripCR search))
  simp only [windowAt, List.length_take, List.length_drop, searchLen] at hlen hL ⊢
  have hle : (splitNL (stripCR search)).length ≤ lines.length - i := by
    rcases Nat.le_total ((splitNL (stripCR search)).length)
      (lines.length - i) with hle | hle
    · exact hle
    · rw [Nat.min_eq_right hle] at hlen
      omega
  omega

theorem fuzzyMatch_bounds {cfg : Config} {lines : List Str}
    {op : EditOperation} {m : MatchResult}
    (h : fuzzyMatch cfg lines op = .ok m) :
    1 ≤ m.startLine ∧ m.startLine ≤ m.endLine + 1 ∧
      m.endLine ≤ lines.length := by
  unfold fuzzyMatch at h
  split at h
  · exact absurd h (by simp)
  · rename_i i c heq
    split at h
    · cases h
      have hmem : (i, c) ∈ fuzzyScores cfg lines op := pickBest_mem heq
      simp only [fuzzyScores, List.mem_map] at hmem
      obtain ⟨i', hi', heq2⟩ := hmem
      have hii : i' = i := congrArg Prod.fst heq2
      subst hii
      simp only [fuzzyStarts, List.mem_filter, List.mem_range] at hi'
      obtain ⟨hi1, _⟩ := hi'
      have hL : 1 ≤ searchLen op.searchText :=
        List.length_pos.mpr (splitNL_ne_nil (stripCR op.searchText))
      refine ⟨?_, ?_, ?_⟩ <;> dsimp only <;> omega
    · exact absurd h (by simp)

theorem matchOp_bounds {cfg : Config} {lines : List Str}
    {op : EditOperation} {m : MatchResult}
    (hwf : ∀ l ∈ lines, '\n' ∉ l)
    (h : matchOp cfg lines op = .ok m) :
    1 ≤ m.startLine ∧ m.startLine ≤ m.endLine + 1 ∧
      m.endLine ≤ lines.length := by
  unfold matchOp at h
  split at h
  · cases hsl : op.startLine with
    | none => rw [hsl] at h; exact absurd h (by simp)
    | some h0 =>
      rw [hsl] at h
      simp only [] at h
      by_cases hcond : 1 ≤ h0 ∧ h0 ≤ lines.length + 1
      · rw [if_pos hcond] at h
        cases h
        obtain ⟨h1, h2⟩ := hcond
        refine ⟨?_, ?_, ?_⟩ <;> dsimp only <;> omega
      · rw [if_neg hcond] at h
        exact absurd h (by simp)
  · rename_i hse
    split at h
    · rename_i i heq
      cases h
      have hi : i ∈ exactCandidates lines op.searchText := chooseExact_mem heq
      simp only [exactCandidates, List.mem_filter, List.mem_range] at hi
      obtain ⟨hi1, hi2⟩ := hi
      obtain ⟨_, hspec2⟩ := exactAt_spec hwf hse hi2
      refine ⟨?_, ?_, ?_⟩ <;> dsimp only <;> omega
    · exact fuzzyMatch_bounds h

theorem resolveAll_bounds {cfg : Config} {lines : List Str}
    (hwf : ∀ l ∈ lines, '\n' ∉ l) :
    ∀ {ops : List EditOperation} {ms : List MatchResult},
      resolveAll cfg lines ops = .ok ms →
      ∀ m ∈ ms, 1 ≤ m.startLine ∧ m.startLine ≤ m.endLine + 1 ∧
        m.endLine ≤ lines.length := by
  intro ops
  induction ops with
  | nil =>
    intro ms h
    simp only [resolveAll] at h
    cases h
    simp
  | cons op rest ih =>
    intro ms h
    simp only [resolveAll] at h
    split at h
    · exact absurd h (by simp)
    · rename_i m0 hm0
      split at h
      · exact absurd h (by simp)
      · rename_i ms0 hms0
        cases h
        intro m hm
        rcases List.mem_cons.mp hm with h1 | h1
        · exact h1 ▸ matchOp_bounds hwf hm0
        · exact ih hms0 m h1

theorem overlapWithin_eq_none {m : MatchResult} :
    ∀ {l : List MatchResult}, overlapWithin m l = none ↔
      ∀ m' ∈ l, rangesOverlap m m' = false := by
  intro l
  induction l with
  | nil => simp [overlapWithin]
  | cons m' rest ih =>
    simp only [overlapWithin]
    by_cases hov : rangesOverlap m m'
    · simp [hov]
    · simp only [Bool.not_eq_true] at hov
      simp [hov, ih]

theorem findOverlap_eq_none :
    ∀ {ms : List MatchResult}, findOverlap ms = none ↔
      List.Pairwise (fun a b => rangesOverlap a b = false) ms := by
  intro ms
  induction ms with
  | nil => simp [findOverlap]
  | cons m rest ih =>
    simp only [findOverlap]
    cases hw : overlapWithin m rest with
    | some j =>
      simp only [hw]
      constructor
      · intro hh; exact absurd hh (by simp)
      · intro hp
        have hnone : overlapWithin m rest = none :=
          overlapWithin_eq_none.mpr (List.pairwise_cons.mp hp).1
        rw [hnone] at hw
        cases hw
    | none =>
      simp only [hw, Option.map_eq_none']
      rw [List.pairwise_cons]
      constructor
      · intro hh; exact ⟨overlapWithin_eq_none.mp hw, ih.mp hh⟩
      · intro hpair; exact ih.mpr hpair.2

theorem rangesOverlap_symm (a b : MatchResult) :
    rangesOverlap a b = rangesOverlap b a := by
  unfold rangesOverlap
  rw [decide_eq_decide]
  exact and_comm

theorem mem_zipWith {α β γ : Type} {f : α → β → γ} :
    ∀ {as : List α} {bs : List β} {x : γ},
      x ∈ List.zipWith f as bs → ∃ a b, a ∈ as ∧ b ∈ bs ∧ x = f a b := by
  intro as
  induction as with
  | nil => intro bs x hx; simp at hx
  | cons a as' ih =>
    intro bs x hx
    cases bs with
    | nil => simp at hx
    | cons b bs' =>
      simp only [List.zipWith_cons_cons, List.mem_cons] at hx
      rcases hx with h | h
      · exact ⟨a, b, List.mem_cons_self a as', List.mem_cons_self b bs', h⟩
      · obtain ⟨a', b', ha', hb', hx'⟩ := ih h
        exact ⟨a', b', List.mem_cons_of_mem a ha',
          List.mem_cons_of_mem b hb', hx'⟩

theorem pairwise_zipWith {α β γ : Type} {R : β → β → Prop} {S : γ → γ → Prop}
    {f : α → β → γ} (hf : ∀ a a' b b', R b b' → S (f a b) (f a' b')) :
    ∀ (as : List α) (bs : List β),
      List.Pairwise R bs → List.Pairwise S (List.zipWith f as bs) := by
  intro as
  induction as with
  | nil => intro bs _; simp
  | cons a as' ih =>
    intro bs hp
    cases bs with
    | nil => simp
    | cons b bs' =>
      simp only [List.zipWith_cons_cons]
      rw [List.pairwise_cons] at hp ⊢
      obtain ⟨hb, hp'⟩ := hp
      refine ⟨?_, ih bs' hp'⟩
      intro x hx
      obtain ⟨a', b', _, hb', hx'⟩ := mem_zipWith hx
      exact hx' ▸ hf a a' b b' (hb b' hb')

theorem mkEdits_pairwise {ops : List EditOperation} {ms : List MatchResult}
    (hp : List.Pairwise (fun a b => rangesOverlap a b = false) ms) :
    List.Pairwise edNoOverlap (mkEdits ops ms) := by
  refine pairwise_zipWith ?_ ops ms hp
  intro op op' m m' hr
  unfold edNoOverlap
  dsimp only
  simp only [rangesOverlap, decide_eq_false_iff_not] at hr
  exact hr

theorem mkEdits_bounds {n : Nat} {ops : List EditOperation}
    {ms : List MatchResult}
    (hb : ∀ m ∈ ms, 1 ≤ m.startLine ∧ m.startLine ≤ m.endLine + 1 ∧
      m.endLine ≤ n) :
    ∀ e ∈ mkEdits ops ms, 1 ≤ e.startLine ∧ e.startLine ≤ e.endLine + 1 ∧
      e.endLine ≤ n := by
  intro e he
  obtain ⟨op, m, _, hm, he'⟩ := mem_zipWith he
  subst he'
  exact hb m hm

theorem edNoOverlap_symm : Symmetric edNoOverlap := by
  intro a b h
  unfold edNoOverlap at h ⊢
  omega

theorem sortDesc_sorted (es : List ResolvedEdit) :
    List.Sorted edGE (sortDesc es) :=
  List.sorted_insertionSort edGE es

theorem sortDesc_perm (es : List ResolvedEdit) :
    List.Perm (sortDesc es) es :=
  List.perm_insertionSort edGE es

theorem applyEdits_append :
    ∀ (es : List ResolvedEdit) (A B : List Str),
      List.Sorted edGE es → List.Pairwise edNoOverlap es →
      (∀ e ∈ es, 1 ≤ e.startLine ∧ e.startLine ≤ e.endLine + 1 ∧
        e.endLine ≤ A.length) →
      applyEdits (A ++ B) es = segments A es ++ B := by
  intro es
  induction es with
  | nil => intro A B _ _ _; simp [applyEdits, segments]
  | cons e rest ih =>
    intro A B hs hp hb
    rw [List.sorted_cons] at hs
    obtain ⟨hse, hs'⟩ := hs
    rw [List.pairwise_cons] at hp
    obtain ⟨hpe, hp'⟩ := hp
    obtain ⟨he1, he2, he3⟩ := hb e (List.mem_cons_self e rest)
    have hkey : ∀ e' ∈ rest, e'.endLine ≤ e.startLine - 1 := by
      intro e' he'
      have h1 := hse e' he'
      have h2 := hpe e' he'
      unfold edGE at h1
      unfold edNoOverlap at h2
      omega
    have hsplice : splice (A ++ B) e
        = A.take (e.startLine - 1)
          ++ (e.replaceLines ++ (A.drop e.endLine ++ B)) := by
      unfold splice
      rw [List.take_append_eq_append_take, List.drop_append_eq_append_drop]
      have ht : e.startLine - 1 - A.length = 0 := by omega
      have hd : e.endLine - A.length = 0 := by omega
      rw [ht, hd]
      simp [List.append_assoc]
    simp only [applyEdits]
    rw [hsplice]
    rw [ih (A.take (e.startLine - 1))
      (e.replaceLines ++ (A.drop e.endLine ++ B)) hs' hp' ?_]
    · simp [segments, List.append_assoc]
    · intro e' he'
      obtain ⟨g1, g2, g3⟩ := hb e' (List.mem_cons_of_mem e he')
      have hk := hkey e' he'
      refine ⟨g1, g2, ?_⟩
      rw [List.length_take]
      exact Nat.le_min.mpr ⟨hk, g3⟩

theorem applyEdits_eq_segments {es : List ResolvedEdit} {lines : List Str}
    (hs : List.Sorted edGE es) (hp : List.Pairwise edNoOverlap es)
    (hb : ∀ e ∈ es, 1 ≤ e.startLine ∧ e.startLine ≤ e.endLine + 1 ∧
      e.endLine ≤ lines.length) :
    applyEdits lines es = segments lines es := by
  have h := applyEdits_append es lines [] hs hp hb
  simpa using h

theorem exactAt_lt_length {lines : List Str} {search : Str} {i : Nat}
    (hne : search ≠ []) (h : exactAt lines search i = true) :
    i < lines.length := by
  have hj : joinNL (windowAt lines i (searchLen search)) = stripCR search :=
    of_decide_eq_true h
  have hsne := stripCR_ne_nil hne
  by_contra hge
  push_neg at hge
  have hwnil : windowAt lines i (searchLen search) = [] := by
    unfold windowAt
    rw [List.drop_eq_nil_of_le hge]
    simp
  rw [hwnil] at hj
  exact hsne (by simpa [joinNL] using hj.symm)

theorem foldl_nearStep_ne_none (h : Nat) :
    ∀ (cs : List Nat) (b : Nat), cs.foldl (nearStep h) (some b) ≠ none := by
  intro cs
  induction cs with
  | nil => intro b; simp
  | cons c cs' ih =>
    intro b
    simp only [List.foldl_cons]
    have : nearStep h (some b) c = some (if distTo h c < distTo h b then c else b) := by
      rw [apply_ite some]
      rfl
    rw [this]
    exact ih _

theorem chooseExact_ne_none {hint : Option Nat} {cands : List Nat}
    (hne : cands ≠ []) : chooseExact hint cands ≠ none := by
  unfold chooseExact
  cases hint with
  | none =>
    cases cands with
    | nil => exact absurd rfl hne
    | cons c cs => simp
  | some h =>
    cases cands with
    | nil => exact absurd rfl hne
    | cons c cs =>
      unfold pickNearest
      simp only [List.foldl_cons, nearStep]
      exact foldl_nearStep_ne_none h cs c

theorem sortDesc_pair {e1 e2 : ResolvedEdit}
    (hne : ¬(e1.startLine = e2.startLine ∧ e1.endLine = e2.endLine)) :
    sortDesc [e1, e2] = sortDesc [e2, e1] := by
  unfold sortDesc
  simp only [List.insertionSort, List.orderedInsert]
  by_cases ha : edGE e1 e2
  · have hb : ¬ edGE e2 e1 := by unfold edGE at ha ⊢; omega
    simp [ha, hb]
  · have hb : edGE e2 e1 := by unfold edGE at ha ⊢; omega
    simp [ha, hb]

theorem take_window_drop (lines : List Str) (i L : Nat) :
    lines.take i ++ windowAt lines i L ++ lines.drop (i + L) = lines := by
  unfold windowAt
  have h1 : lines.drop (i + L) = (lines.drop i).drop L := by
    rw [List.drop_drop, Nat.add_comm]
  rw [h1, List.append_assoc, List.take_append_drop, List.take_append_drop]

/-- C3: for every document and every non-empty search snippet that occurs as
an exact contiguous-line substring of the document exactly once (joined range
content character-identical to the search text after normalizing line
terminators), `match` returns exactly that line range (1-indexed, spanning
the snippet's line count) with confidence 1, whatever line hint the operation
carries.  Positions at or beyond the document's line count cannot host an
occurrence, so uniqueness is quantified over in-range positions. -/
theorem C3_exactness {cfg : Config} {doc : Document} {op : EditOperation}
    {i : Nat}
    (hne : op.searchText ≠ [])
    (hx : exactAt doc.lines op.searchText i = true)
    (huniq : ∀ j, j < doc.lines.length →
      exactAt doc.lines op.searchText j = true → j = i) :
    matchOp cfg doc.lines op
      = .ok ⟨i + 1, i + searchLen op.searchText, 1⟩ := by
  have hi : i < doc.lines.length := exactAt_lt_length hne hx
  have hcands : exactCandidates doc.lines op.searchText = [i] := by
    unfold exactCandidates
    exact filter_range_eq_singleton doc.lines.length i hi hx huniq
  unfold matchOp
  rw [if_neg hne, hcands]
  cases hsl : op.startLine with
  | none => simp [chooseExact]
  | some h0 => simp [chooseExact, pickNearest, nearStep]

/-- C3 witness: in the document `a / b / c` the snippet `b` occurs exactly
once, at line 2, and `match` resolves it there with confidence 1. -/
theorem C3_exactness_witness :
    matchOp ⟨1, 0⟩ ["a".data, "b".data, "c".data]
      ⟨"b".data, "X".data, none, none⟩
      = .ok ⟨2, 2, 1⟩ := by
  exact @C3_exactness ⟨1, 0⟩ ⟨["a".data, "b".data, "c".data], false⟩
    ⟨"b".data, "X".data, none, none⟩ 1 (by decide) (by decide) (by decide)

/-- C5: for every document and search snippet with no exact occurrence (in
particular one differing from its best window by a single whitespace token),
with best fuzzy candidate scoring `c`: `match` succeeds with confidence `c`
when the configured threshold is below `c`, and fails with `NoMatch` carrying
`c` when the threshold exceeds `c`. -/
theorem C5_fuzzy_threshold_boundary {cfg : Config} {doc : Document}
    {op : EditOperation} {i : Nat} {c : Rat}
    (hne : op.searchText ≠ [])
    (hnoexact : ∀ k, k < doc.lines.length →
      exactAt doc.lines op.searchText k = false)
    (hbest : pickBest (fuzzyScores cfg doc.lines op) = some (i, c)) :
    (cfg.fuzzyThreshold < c →
      matchOp cfg doc.lines op
        = .ok ⟨i + 1, i + searchLen op.searchText, c⟩) ∧
    (c < cfg.fuzzyThreshold →
      matchOp cfg doc.lines op = .error (.noMatch c)) := by
  have hcands : exactCandidates doc.lines op.searchText = [] := by
    unfold exactCandidates
    rw [List.filter_eq_nil_iff]
    intro a ha
    simp only [List.mem_range] at ha
    simp [hnoexact a ha]
  have hmo : matchOp cfg doc.lines op = fuzzyMatch cfg doc.lines op := by
    unfold matchOp
    rw [if_neg hne, hcands]
    cases op.startLine <;> simp [chooseExact, pickNearest]
  constructor
  · intro hlt
    rw [hmo]
    simp only [fuzzyMatch, hbest]
    rw [if_pos (le_of_lt hlt)]
  · intro hlt
    rw [hmo]
    simp only [fuzzyMatch, hbest]
    rw [if_neg (not_le.mpr hlt)]

unseal Rat.add Rat.sub Rat.mul Rat.inv in
/-- C5 witness: the snippet `foo bar` differs from the document line
`foo  bar` by one extra space; its similarity is 7/8.  With threshold 3/4
(below the score) the match succeeds at line 1 with confidence 7/8; with
threshold 15/16 (above the score) it fails with `NoMatch` carrying 7/8. -/
theorem C5_fuzzy_threshold_boundary_witness :
    matchOp ⟨3/4, 0⟩ ["foo  bar".data]
      ⟨"foo bar".data, "baz".data, none, none⟩ = .ok ⟨1, 1, 7/8⟩ ∧
    matchOp ⟨15/16, 0⟩ ["foo  bar".data]
      ⟨"foo bar".data, "baz".data, none, none⟩
      = .error (.noMatch (7/8)) := by
  constructor
  · exact (@C5_fuzzy_threshold_boundary ⟨3/4, 0⟩ ⟨["foo  bar".data], false⟩
      ⟨"foo bar".data, "baz".data, none, none⟩ 0 (7/8)
      (by decide) (by decide) (by decide)).1 (by decide)
  · exact (@C5_fuzzy_threshold_boundary ⟨15/16, 0⟩ ⟨["foo  bar".data], false⟩
      ⟨"foo bar".data, "baz".data, none, none⟩ 0 (7/8)
      (by decide) (by decide) (by decide)).2 (by decide)

/-- C6: when a non-empty search snippet occurs exactly twice in the document,
at 0-indexed lines `i < j`, and the operation carries a line hint, `match`
resolves to the occurrence whose 1-indexed start is nearest the hint
(smallest absolute distance, ties broken in favor of the earlier occurrence
`i`), not necessarily the first occurrence in document order. -/
theorem C6_line_hint_tiebreak {cfg : Config} {doc : Document}
    {op : EditOperation} {i j h : Nat}
    (hne : op.searchText ≠ []) (hij : i < j)
    (hxi : exactAt doc.lines op.searchText i = true)
    (hxj : exactAt doc.lines op.searchText j = true)
    (huniq : ∀ k, k < doc.lines.length →
      exactAt doc.lines op.searchText k = true → k = i ∨ k = j)
    (hhint : op.startLine = some h) :
    matchOp cfg doc.lines op
      = .ok ⟨(if distTo h j < distTo h i then j else i) + 1,
             (if distTo h j < distTo h i then j else i)
               + searchLen op.searchText, 1⟩ := by
  have hjlt : j < doc.lines.length := exactAt_lt_length hne hxj
  have hcands : exactCandidates doc.lines op.searchText = [i, j] := by
    unfold exactCandidates
    exact filter_range_eq_pair doc.lines.length i j hij hjlt hxi hxj huniq
  unfold matchOp
  rw [if_neg hne, hcands, hhint]
  by_cases hd : distTo h j < distTo h i <;>
    simp [chooseExact, pickNearest, nearStep, hd]

/-- C6 witness: in the document `x / y / x / y` the snippet `x` occurs at
lines 1 and 3; with hint 3 the second occurrence is chosen (distance 0),
with hint 2 the tie (both at distance 1) goes to the first occurrence. -/
theorem C6_line_hint_tiebreak_witness :
    matchOp ⟨1, 0⟩ ["x".data, "y".data, "x".data, "y".data]
      ⟨"x".data, "z".data, some 3, none⟩ = .ok ⟨3, 3, 1⟩ ∧
    matchOp ⟨1, 0⟩ ["x".data, "y".data, "x".data, "y".data]
      ⟨"x".data, "z".data, some 2, none⟩ = .ok ⟨1, 1, 1⟩ := by
  constructor
  · exact @C6_line_hint_tiebreak ⟨1, 0⟩
      ⟨["x".data, "y".data, "x".data, "y".data], false⟩
      ⟨"x".data, "z".data, some 3, none⟩ 0 2 3
      (by decide) (by decide) (by decide) (by decide) (by decide) (by decide)
  · exact @C6_line_hint_tiebreak ⟨1, 0⟩
      ⟨["x".data, "y".data, "x".data, "y".data], false⟩
      ⟨"x".data, "z".data, some 2, none⟩ 0 2 2
      (by decide) (by decide) (by decide) (by decide) (by decide) (by decide)

theorem applyDiff_overlap {cfg : Config} {doc : Document}
    {ops : List EditOperation} {ms : List MatchResult} {a b : Nat}
    (hres : resolveAll cfg doc.lines ops = .ok ms)
    (hfo : findOverlap ms = some (a, b)) :
    applyDiff cfg doc ops = .failure (.overlappingEdits a b) := by
  unfold applyDiff
  rw [hres]
  simp only [hfo]

/-- C1: whenever the resolved match ranges of a batch contain two distinct
operations whose ranges intersect (share a line index), `applyDiff` fails
with `overlappingEdits`; since a failure carries no content, no operation in
the batch is applied and the document is left unchanged (all-or-nothing). -/
theorem C1_overlap_rejection {cfg : Config} {doc : Document}
    {ops : List EditOperation} {ms : List MatchResult} {i j : Nat}
    (hres : resolveAll cfg doc.lines ops = .ok ms)
    (hi : i < ms.length) (hj : j < ms.length) (hne : i ≠ j)
    (hov : rangesOverlap (ms.get ⟨i, hi⟩) (ms.get ⟨j, hj⟩) = true) :
    isOverlapFailure (applyDiff cfg doc ops) = true := by
  have hnp : ¬ List.Pairwise (fun a b => rangesOverlap a b = false) ms := by
    intro hp
    rw [List.pairwise_iff_get] at hp
    rcases Nat.lt_or_ge i j with hij | hij
    · have hfalse := hp ⟨i, hi⟩ ⟨j, hj⟩ hij
      rw [hfalse] at hov
      cases hov
    · have hji : j < i := by omega
      have hfalse := hp ⟨j, hj⟩ ⟨i, hi⟩ hji
      rw [rangesOverlap_symm] at hfalse
      rw [hfalse] at hov
      cases hov
  have hfind : findOverlap ms ≠ none := fun hn => hnp (findOverlap_eq_none.mp hn)
  cases hfo : findOverlap ms with
  | none => exact absurd hfo hfind
  | some p =>
    rw [applyDiff_overlap hres (hfo.trans (congrArg some (Prod.mk.eta).symm))]
    rfl

/-- C1 witness: the snippets `a / b` and `b / c` resolve to the overlapping
ranges 1-2 and 2-3 of the document `a / b / c`, so the two-operation batch is
rejected with an `overlappingEdits` failure. -/
theorem C1_overlap_rejection_witness :
    isOverlapFailure (applyDiff ⟨1, 0⟩ ⟨["a".data, "b".data, "c".data], false⟩
      [⟨"a\nb".data, "X".data, none, none⟩,
       ⟨"b\nc".data, "Y".data, none, none⟩]) = true := by
  exact @C1_overlap_rejection ⟨1, 0⟩ ⟨["a".data, "b".data, "c".data], false⟩
    [⟨"a\nb".data, "X".data, none, none⟩, ⟨"b\nc".data, "Y".data, none, none⟩]
    [⟨1, 2, 1⟩, ⟨2, 3, 1⟩] 0 1
    rfl (by decide) (by decide) (by decide) (by decide)

/-- C8: for every successfully applied batch, the output document keeps the
input's line-terminator convention, and its lines are exactly the `segments`
decomposition of the input lines along the resolved ranges in application
order: untouched input line segments, taken verbatim (byte-identical),
interleaved with the replacement blocks.  Every output line strictly outside
the replaced ranges is therefore the corresponding input line unchanged. -/
theorem C8_frame_preservation {cfg : Config} {doc : Document}
    {ops : List EditOperation} {ms : List MatchResult} {out : Document}
    (hwf : ∀ l ∈ doc.lines, '\n' ∉ l)
    (hres : resolveAll cfg doc.lines ops = .ok ms)
    (hsucc : applyDiff cfg doc ops = .success out) :
    out.crlf = doc.crlf ∧
      out.lines = segments doc.lines (sortDesc (mkEdits ops ms)) := by
  unfold applyDiff at hsucc
  rw [hres] at hsucc
  simp only [] at hsucc
  cases hfo : findOverlap ms with
  | some p =>
    rw [hfo] at hsucc
    cases p
    cases hsucc
  | none =>
    rw [hfo] at hsucc
    simp only [ApplyResult.success.injEq] at hsucc
    have hpw : List.Pairwise (fun a b => rangesOverlap a b = false) ms :=
      findOverlap_eq_none.mp hfo
    have hb := resolveAll_bounds hwf hres
    have hpwE : List.Pairwise edNoOverlap (mkEdits ops ms) :=
      mkEdits_pairwise hpw
    have hbE := @mkEdits_bounds doc.lines.length ops ms hb
    have hperm := sortDesc_perm (mkEdits ops ms)
    have hpwS : List.Pairwise edNoOverlap (sortDesc (mkEdits ops ms)) :=
      (List.Perm.pairwise_iff (fun h => edNoOverlap_symm h) hperm).mpr hpwE
    have hbS : ∀ e ∈ sortDesc (mkEdits ops ms),
        1 ≤ e.startLine ∧ e.startLine ≤ e.endLine + 1 ∧
          e.endLine ≤ doc.lines.length :=
      fun e he => hbE e (hperm.mem_iff.mp he)
    have hseg := applyEdits_eq_segments (sortDesc_sorted (mkEdits ops ms))
      hpwS hbS
    rw [← hsucc]
    exact ⟨rfl, hseg⟩

/-- C8 witness: the spec's concrete scenario - a five-line document, one
block matching lines 2-3 with hint 2 and one replacement line - succeeds,
keeps the terminator convention and equals the segments decomposition:
line 1 untouched, the replacement, then lines 4-5 untouched. -/
theorem C8_frame_preservation_witness :
    (⟨["L1".data, "R".data, "L4".data, "L5".data], false⟩ : Document).crlf
      = (⟨["L1".data, "L2".data, "L3".data, "L4".data, "L5".data],
          false⟩ : Document).crlf ∧
    (⟨["L1".data, "R".data, "L4".data, "L5".data], false⟩ : Document).lines
      = segments
          (⟨["L1".data, "L2".data, "L3".data, "L4".data, "L5".data],
            false⟩ : Document).lines
          (sortDesc (mkEdits [⟨"L2\nL3".data, "R".data, some 2, none⟩]
            [⟨2, 3, 1⟩])) := by
  exact @C8_frame_preservation ⟨1, 0⟩
    ⟨["L1".data, "L2".data, "L3".data, "L4".data, "L5".data], false⟩
    [⟨"L2\nL3".data, "R".data, some 2, none⟩] [⟨2, 3, 1⟩]
    ⟨["L1".data, "R".data, "L4".data, "L5".data], false⟩
    (by decide) rfl rfl

unseal Rat.add Rat.sub Rat.mul Rat.inv in
/-- C7 counterexample: with fuzzy threshold 1/2, the no-op operation whose
search and replace text are both `foo bar` is fuzzy-matched (score 7/8)
against the document line `foo  bar`; applying it succeeds but replaces the
matched window with the search text, so the result differs from the
original document.  The claim as stated is therefore false: a successful
`applyDiff` of a no-op operation need not return the document unchanged. -/
theorem C7_counterexample :
    applyDiff ⟨1/2, 0⟩ ⟨["foo  bar".data], false⟩
      [⟨"foo bar".data, "foo bar".data, none, none⟩]
      = .success ⟨["foo bar".data], false⟩ ∧
    (⟨["foo bar".data], false⟩ : Document)
      ≠ (⟨["foo  bar".data], false⟩ : Document) := by
  constructor
  · decide
  · decide

/-- C7 (amended): applying an edit whose replace text equals its (non-empty)
search text yields a document identical to the original, provided the search
text occurs exactly in the document (so the match is exact, confidence 1);
under fuzzy matching a no-op edit can still rewrite the matched window. -/
theorem C7_noop_exact {cfg : Config} {doc : Document} {op : EditOperation}
    {i : Nat}
    (hwf : ∀ l ∈ doc.lines, '\n' ∉ l)
    (hrepl : op.replaceText = op.searchText)
    (hne : op.searchText ≠ [])
    (hx : exactAt doc.lines op.searchText i = true) :
    applyDiff cfg doc [op] = .success doc := by
  have hi : i < doc.lines.length := exactAt_lt_length hne hx
  have hmem : i ∈ exactCandidates doc.lines op.searchText := by
    unfold exactCandidates
    rw [List.mem_filter, List.mem_range]
    exact ⟨hi, hx⟩
  have hcne : exactCandidates doc.lines op.searchText ≠ [] :=
    fun hnil => by rw [hnil] at hmem; cases hmem
  cases hch : chooseExact op.startLine (exactCandidates doc.lines op.searchText)
    with
  | none => exact absurd hch (chooseExact_ne_none hcne)
  | some k =>
    have hk : k ∈ exactCandidates doc.lines op.searchText := chooseExact_mem hch
    rw [exactCandidates, List.mem_filter, List.mem_range] at hk
    obtain ⟨hklt, hkx⟩ := hk
    obtain ⟨hwin, hbound⟩ := exactAt_spec hwf hne hkx
    have hmo : matchOp cfg doc.lines op
        = .ok ⟨k + 1, k + searchLen op.searchText, 1⟩ := by
      unfold matchOp
      rw [if_neg hne]
      simp only [hch]
    have hres : resolveAll cfg doc.lines [op]
        = .ok [⟨k + 1, k + searchLen op.searchText, 1⟩] := by
      simp only [resolveAll, hmo]
    unfold applyDiff
    rw [hres]
    simp only [findOverlap, overlapWithin, Option.map_none]
    have hlines : applyEdits doc.lines (sortDesc (mkEdits [op]
        [⟨k + 1, k + searchLen op.searchText, 1⟩])) = doc.lines := by
      simp only [mkEdits, List.zipWith_cons_cons, List.zipWith_nil_right,
        sortDesc, List.insertionSort, List.orderedInsert, applyEdits, splice]
      rw [hrepl]
      have hrep : splitNL (stripCR op.searchText)
          = windowAt doc.lines k (searchLen op.searchText) := hwin.symm
      rw [hrep]
      simp only [Nat.add_sub_cancel]
      have := take_window_drop doc.lines k (searchLen op.searchText)
      simpa using this
    rw [hlines]
    cases doc
    rfl

/-- C7 witness: replacing the unique exact occurrence of `b` by `b` in the
document `a / b / c` returns the document unchanged. -/
theorem C7_noop_exact_witness :
    applyDiff ⟨1, 0⟩ ⟨["a".data, "b".data, "c".data], false⟩
      [⟨"b".data, "b".data, none, none⟩]
      = .success ⟨["a".data, "b".data, "c".data], false⟩ := by
  exact @C7_noop_exact ⟨1, 0⟩ ⟨["a".data, "b".data, "c".data], false⟩
    ⟨"b".data, "b".data, none, none⟩ 1
    (by decide) rfl (by decide) (by decide)

/-- C4 counterexample: two pure insertions at the same hinted line have
non-overlapping (empty) resolved ranges, yet the two listed orders produce
different documents (`b/a/x` versus `a/b/x`), so order independence fails as
universally stated. -/
theorem C4_counterexample :
    applyDiff ⟨1, 0⟩ ⟨["x".data], false⟩
      [⟨[], "a".data, some 1, none⟩, ⟨[], "b".data, some 1, none⟩]
      ≠ applyDiff ⟨1, 0⟩ ⟨["x".data], false⟩
        [⟨[], "b".data, some 1, none⟩, ⟨[], "a".data, some 1, none⟩] := by
  decide

/-- C4 (amended): for two operations whose resolved ranges do not overlap
and are not the identical empty insertion range, applying the two-operation
batch in either listed order yields the same result; internally the batch is
applied in an order sorted from the highest starting line to the lowest
(`edGE`-sorted).  The only failures of order independence are two pure
insertions at the same start line, as in the counterexample. -/
theorem C4_order_independence {cfg : Config} {doc : Document}
    {op1 op2 : EditOperation} {m1 m2 : MatchResult}
    (h1 : matchOp cfg doc.lines op1 = .ok m1)
    (h2 : matchOp cfg doc.lines op2 = .ok m2)
    (hno : rangesOverlap m1 m2 = false)
    (hdist : ¬(m1.startLine = m2.startLine ∧ m1.endLine = m2.endLine)) :
    applyDiff cfg doc [op1, op2] = applyDiff cfg doc [op2, op1] ∧
    List.Sorted edGE (sortDesc (mkEdits [op1, op2] [m1, m2])) := by
  refine ⟨?_, sortDesc_sorted _⟩
  have hno' : rangesOverlap m2 m1 = false :=
    (rangesOverlap_symm m2 m1).trans hno
  have hr12 : resolveAll cfg doc.lines [op1, op2] = .ok [m1, m2] := by
    simp only [resolveAll, h1, h2]
  have hr21 : resolveAll cfg doc.lines [op2, op1] = .ok [m2, m1] := by
    simp only [resolveAll, h1, h2]
  have hfo12 : findOverlap [m1, m2] = none := by
    simp [findOverlap, overlapWithin, hno]
  have hfo21 : findOverlap [m2, m1] = none := by
    simp [findOverlap, overlapWithin, hno']
  unfold applyDiff
  rw [hr12, hr21]
  simp only [hfo12, hfo21]
  have hsort : sortDesc (mkEdits [op1, op2] [m1, m2])
      = sortDesc (mkEdits [op2, op1] [m2, m1]) := by
    simp only [mkEdits, List.zipWith_cons_cons, List.zipWith_nil_right]
    exact sortDesc_pair (by dsimp only; exact hdist)
  rw [hsort]

/-- C4 witness: replacing line 2 (`b` by `B`) and line 4 (`d` by `D`) of a
five-line document - non-overlapping, distinct ranges - gives the same
result in either listed order, and the internal application order is sorted
from the highest start line to the lowest. -/
theorem C4_order_independence_witness :
    applyDiff ⟨1, 0⟩
      ⟨["a".data, "b".data, "c".data, "d".data, "e".data], false⟩
      [⟨"b".data, "B".data, none, none⟩, ⟨"d".data, "D".data, none, none⟩]
      = applyDiff ⟨1, 0⟩
        ⟨["a".data, "b".data, "c".data, "d".data, "e".data], false⟩
        [⟨"d".data, "D".data, none, none⟩,
         ⟨"b".data, "B".data, none, none⟩] ∧
    List.Sorted edGE (sortDesc (mkEdits
      [⟨"b".data, "B".data, none, none⟩, ⟨"d".data, "D".data, none, none⟩]
      [⟨2, 2, 1⟩, ⟨4, 4, 1⟩])) := by
  exact @C4_order_independence ⟨1, 0⟩
    ⟨["a".data, "b".data, "c".data, "d".data, "e".data], false⟩
    ⟨"b".data, "B".data, none, none⟩ ⟨"d".data, "D".data, none, none⟩
    ⟨2, 2, 1⟩ ⟨4, 4, 1⟩
    rfl rfl (by decide) (by decide)

/-- C2: the spec's concrete Unicode scenario, on a model whose text is a
sequence of Unicode scalar values (so matching and splicing cannot bisect a
multi-code-unit character): the document containing the line
`**✔ This is a test line.**` edited by a block searching for exactly that
line and replacing it with `**This line has been successfully modified.**`
yields exactly the replacement line with all surrounding lines unchanged
character-for-character (hence byte-for-byte in any Unicode encoding). -/
theorem C2_unicode_integrity :
    applyDiff ⟨1, 0⟩
      ⟨["# Test File".data, [], "**✔ This is a test line.**".data, [],
        "Some other content.".data], false⟩
      [⟨"**✔ This is a test line.**".data,
        "**This line has been successfully modified.**".data, none, none⟩]
      = .success ⟨["# Test File".data, [],
          "**This line has been successfully modified.**".data, [],
          "Some other content.".data], false⟩ := by
  decide

end DiffEngine

namespace ClaudeCode

theorem runProcess_command (sp : String) (path modelId : Option String)
    (platform tempPath : String) :
    (runProcess sp path modelId platform tempPath).command
      = if platform == "win32"
          && !(toLowerStr (path.getD "claude") == "cmd.exe"
            || toLowerStr (path.getD "claude") == "cmd")
        then "cmd.exe" else path.getD "claude" := rfl

theorem runProcess_args (sp : String) (path modelId : Option String)
    (platform tempPath : String) :
    (runProcess sp path modelId platform tempPath).args
      = if platform == "win32"
          && !(toLowerStr (path.getD "claude") == "cmd.exe"
            || toLowerStr (path.getD "claude") == "cmd")
        then "/c" :: path.getD "claude" :: baseArgs sp tempPath modelId
        else baseArgs sp tempPath modelId := rfl

theorem runProcess_tempFile (sp : String) (path modelId : Option String)
    (platform tempPath : String) :
    (runProcess sp path modelId platform tempPath).tempFile
      = if sp.length > MAX_COMMAND_LINE_LENGTH then some (tempPath, sp)
        else none := rfl

theorem baseArgs_ne_nil (sp tempPath : String) (modelId : Option String) :
    baseArgs sp tempPath modelId ≠ [] := by
  unfold baseArgs
  simp

theorem baseArgs_headq (sp tempPath : String) (modelId : Option String) :
    (baseArgs sp tempPath modelId).head? = some "-p" := rfl

theorem argAfter_cons_of_ne {flag a : String} {l : List String}
    (ha : a ≠ flag) (hl : l ≠ []) :
    argAfter flag (a :: l) = argAfter flag l := by
  cases l with
  | nil => exact absurd rfl hl
  | cons b rest => simp [argAfter, ha]

theorem argAfter_found {flag b : String} {rest : List String} :
    argAfter flag (flag :: b :: rest) = some b := by
  show (if flag = flag then some b else argAfter flag (b :: rest)) = some b
  rw [if_pos rfl]

theorem argAfter_baseArgs (sp tempPath : String) (modelId : Option String) :
    argAfter "--system-prompt" (baseArgs sp tempPath modelId)
      = some (if sp.length > MAX_COMMAND_LINE_LENGTH then "@" ++ tempPath
              else sp) := by
  unfold baseArgs
  by_cases hlen : sp.length > MAX_COMMAND_LINE_LENGTH
  · rw [if_pos hlen, if_pos hlen]
    simp only [List.cons_append, List.nil_append]
    rw [argAfter_cons_of_ne (by decide) (by simp), argAfter_found]
  · rw [if_neg hlen, if_neg hlen]
    simp only [List.cons_append, List.nil_append]
    rw [argAfter_cons_of_ne (by decide) (by simp), argAfter_found]

/-- C9: the system prompt is passed inline as the argument following
`--system-prompt` exactly when its length is at most
`MAX_COMMAND_LINE_LENGTH` (7000, inclusive at the boundary), and no
temporary file is created; when the length strictly exceeds 7000 the
argument is `@<tempPath>` instead, the temporary file recorded in the
result holds the prompt verbatim, and the generator's cleanup deletes
exactly that file when it finishes.  (The configured executable path is
assumed distinct from the literal flag `--system-prompt`, since the scan
for the flag would otherwise hit the path argument of the `cmd.exe /c`
wrapping first.) -/
theorem C9_system_prompt_boundary (sp : String) (path modelId : Option String)
    (platform tempPath : String)
    (hpath : path.getD "claude" ≠ "--system-prompt") :
    (sp.length ≤ MAX_COMMAND_LINE_LENGTH →
      argAfter "--system-prompt"
        (runProcess sp path modelId platform tempPath).args = some sp ∧
      (runProcess sp path modelId platform tempPath).tempFile = none) ∧
    (MAX_COMMAND_LINE_LENGTH < sp.length →
      argAfter "--system-prompt"
        (runProcess sp path modelId platform tempPath).args
          = some ("@" ++ tempPath) ∧
      (runProcess sp path modelId platform tempPath).tempFile
          = some (tempPath, sp) ∧
      cleanupTarget (runProcess sp path modelId platform tempPath)
          = some tempPath) := by
  have hargs : argAfter "--system-prompt"
      (runProcess sp path modelId platform tempPath).args
        = some (if sp.length > MAX_COMMAND_LINE_LENGTH then "@" ++ tempPath
                else sp) := by
    rw [runProcess_args]
    by_cases hw : (platform == "win32"
        && !(toLowerStr (path.getD "claude") == "cmd.exe"
          || toLowerStr (path.getD "claude") == "cmd")) = true
    · rw [if_pos hw]
      rw [argAfter_cons_of_ne (by decide) (by simp)]
      rw [argAfter_cons_of_ne hpath (baseArgs_ne_nil sp tempPath modelId)]
      exact argAfter_baseArgs sp tempPath modelId
    · rw [if_neg hw]
      exact argAfter_baseArgs sp tempPath modelId
  constructor
  · intro hle
    have hlen : ¬ sp.length > MAX_COMMAND_LINE_LENGTH := by omega
    rw [hargs, if_neg hlen, runProcess_tempFile, if_neg hlen]
    exact ⟨rfl, rfl⟩
  · intro hgt
    have hlen : sp.length > MAX_COMMAND_LINE_LENGTH := hgt
    rw [hargs, if_pos hlen, runProcess_tempFile, if_pos hlen]
    refine ⟨rfl, rfl, ?_⟩
    unfold cleanupTarget
    rw [runProcess_tempFile, if_pos hlen]
    rfl

/-- C9 witness: a 2-character prompt is passed inline with no temporary
file; a 7001-character prompt goes through the temporary file `@/tmp/t.txt`,
whose recorded contents are the prompt and whose path is the cleanup
target. -/
theorem C9_system_prompt_boundary_witness :
    (argAfter "--system-prompt"
      (runProcess "hi" none none "linux" "/tmp/t.txt").args = some "hi" ∧
     (runProcess "hi" none none "linux" "/tmp/t.txt").tempFile = none) ∧
    (argAfter "--system-prompt"
      (runProcess (String.mk (List.replicate 7001 'A')) none none "linux"
        "/tmp/t.txt").args = some ("@" ++ "/tmp/t.txt") ∧
     (runProcess (String.mk (List.replicate 7001 'A')) none none "linux"
        "/tmp/t.txt").tempFile
       = some ("/tmp/t.txt", String.mk (List.replicate 7001 'A')) ∧
     cleanupTarget (runProcess (String.mk (List.replicate 7001 'A')) none none
        "linux" "/tmp/t.txt") = some "/tmp/t.txt") := by
  constructor
  · exact (C9_system_prompt_boundary "hi" none none "linux" "/tmp/t.txt"
      (by decide)).1 (by decide)
  · refine (C9_system_prompt_boundary (String.mk (List.replicate 7001 'A'))
      none none "linux" "/tmp/t.txt" (by decide)).2 ?_
    show MAX_COMMAND_LINE_LENGTH < (List.replicate 7001 'A').length
    rw [List.length_replicate]
    decide

/-- C10: `runProcess` spawns `cmd.exe` with arguments beginning
`/c <claudePath>` exactly when the platform is `win32` and the configured
executable path (default `claude`) does not lower-case to `cmd.exe` or
`cmd`; on any other platform, or when the path is already `cmd.exe`/`cmd`,
the configured path is invoked directly with the unwrapped argument list,
whose first argument is `-p` (so no `/c` wrapper argument is passed). -/
theorem C10_windows_cmd_wrapping (sp : String) (path modelId : Option String)
    (platform tempPath : String) :
    ((platform = "win32" ∧ toLowerStr (path.getD "claude") ≠ "cmd.exe" ∧
        toLowerStr (path.getD "claude") ≠ "cmd") →
      (runProcess sp path modelId platform tempPath).command = "cmd.exe" ∧
      (runProcess sp path modelId platform tempPath).args
        = "/c" :: path.getD "claude" :: baseArgs sp tempPath modelId) ∧
    (¬(platform = "win32" ∧ toLowerStr (path.getD "claude") ≠ "cmd.exe" ∧
        toLowerStr (path.getD "claude") ≠ "cmd") →
      (runProcess sp path modelId platform tempPath).command
        = path.getD "claude" ∧
      (runProcess sp path modelId platform tempPath).args
        = baseArgs sp tempPath modelId ∧
      (runProcess sp path modelId platform tempPath).args.head?
        = some "-p") := by
  have hb : (platform == "win32"
      && !(toLowerStr (path.getD "claude") == "cmd.exe"
        || toLowerStr (path.getD "claude") == "cmd")) = true
      ↔ (platform = "win32" ∧ toLowerStr (path.getD "claude") ≠ "cmd.exe" ∧
          toLowerStr (path.getD "claude") ≠ "cmd") := by
    simp [not_or]
  constructor
  · intro hcond
    rw [runProcess_command, runProcess_args, if_pos (hb.mpr hcond),
      if_pos (hb.mpr hcond)]
    exact ⟨rfl, rfl⟩
  · intro hcond
    have hf : ¬ (platform == "win32"
        && !(toLowerStr (path.getD "claude") == "cmd.exe"
          || toLowerStr (path.getD "claude") == "cmd")) = true :=
      fun ht => hcond (hb.mp ht)
    rw [runProcess_command, runProcess_args, if_neg hf, if_neg hf]
    exact ⟨rfl, rfl, baseArgs_headq sp tempPath modelId⟩

/-- C10 witness: on `win32` with path `claude` the command is wrapped as
`cmd.exe /c claude ...`; with path `cmd.exe` it is not wrapped; on `linux`
it is not wrapped and the argument list starts with `-p`. -/
theorem C10_windows_cmd_wrapping_witness :
    ((runProcess "s" (some "claude") none "win32" "/tmp/t.txt").command
        = "cmd.exe" ∧
     (runProcess "s" (some "claude") none "win32" "/tmp/t.txt").args
        = "/c" :: "claude" :: baseArgs "s" "/tmp/t.txt" none) ∧
    ((runProcess "s" (some "cmd.exe") none "win32" "/tmp/t.txt").command
        = "cmd.exe" ∧
     (runProcess "s" (some "cmd.exe") none "win32" "/tmp/t.txt").args
        = baseArgs "s" "/tmp/t.txt" none ∧
     (runProcess "s" (some "cmd.exe") none "win32" "/tmp/t.txt").args.head?
        = some "-p") ∧
    ((runProcess "s" (some "claude") none "linux" "/tmp/t.txt").command
        = "claude" ∧
     (runProcess "s" (some "claude") none "linux" "/tmp/t.txt").args
        = baseArgs "s" "/tmp/t.txt" none ∧
     (runProcess "s" (some "claude") none "linux" "/tmp/t.txt").args.head?
        = some "-p") := by
  refine ⟨?_, ?_, ?_⟩
  · exact (C10_windows_cmd_wrapping "s" (some "claude") none "win32"
      "/tmp/t.txt").1 ⟨rfl, by decide, by decide⟩
  · exact (C10_windows_cmd_wrapping "s" (some "cmd.exe") none "win32"
      "/tmp/t.txt").2 (fun hc => hc.2.1 (by decide))
  · exact (C10_windows_cmd_wrapping "s" (some "claude") none "linux"
      "/tmp/t.txt").2 (fun hc => absurd hc.1 (by decide))

end ClaudeCode
